import Mathlib

/-
Verification of the incremental Rescorla-Wagner learning core of the
discriminative_learning repository (src/ndl.py, src/rescorla_wagner/ndl.py,
src/rescorla_wagner/compute_activations.py, src/matrix/matrix.py).

The embedding is shallow and exact: NumPy float arrays become lists of
rationals, Python dicts become association lists with insertion-order
semantics, and the file system consulted by the drivers becomes an explicit
`Disk` record. Every definition is traced to the source lines it models.
-/

set_option maxRecDepth 20000

namespace NDLModel

/-- Association weights: one row of rationals per cue, one entry per outcome in
each row. Models the NumPy array `weight_matrix` with exact arithmetic. -/
abbrev Weights := List (List ℚ)

/-- Corpus as stored in the .json input files: two parallel lists of lists,
`cueLists[i]` holding the cue symbols and `outcomeLists[i]` the outcome symbols
of learning trial `i` (see the docstrings of `ndl_compute` and
`compute_activations`). -/
structure Corpus where
  cueLists : List (List String)
  outcomeLists : List (List String)

/-- Accumulate a symbol into a list of distinct symbols, keeping first-occurrence
order. Models insertion into the Python sets built by `get_cues_and_outcomes`
(src/ndl.py lines 181-190); a Python set iterates in an arbitrary but fixed
order, and first-occurrence order is the determinisation used by this model. -/
def insertDistinct (acc : List String) (s : String) : List String :=
  if s ∈ acc then acc else acc ++ [s]

/-- Distinct symbols occurring in a list of symbol lists, first occurrences
first. Models the union of per-trial sets in `get_cues_and_outcomes`
(src/ndl.py lines 186-190); reading the resulting list with `List.indexOf` is
the dictionary built by `{k: idx for idx, k in enumerate(cues)}`
(src/ndl.py lines 192-193). -/
def distinctSymbols (ls : List (List String)) : List String :=
  ls.foldl (fun acc l => l.foldl insertDistinct acc) []

/-- Deduplicated view of one trial's symbol list, first occurrences first:
models `set(corpus[0][i])` and `set(corpus[1][i])` (src/ndl.py lines 301-302). -/
def dedupFirst (l : List String) : List String :=
  l.foldl insertDistinct []

/-- Outcome mask vector: `lam` at the column of every outcome present in the
trial, `0` elsewhere (src/ndl.py lines 306-308). An outcome symbol absent from
`outIds` would raise a `KeyError` in the source; here it marks no column, and
theorem C9 shows the mappings built from the corpus itself make this moot. -/
def outcomeMask (outIds : List String) (lam : ℚ) (trialOutcomes : List String) : List ℚ :=
  (List.range outIds.length).map
    (fun j => if trialOutcomes.any (fun o => outIds.indexOf o == j) then lam else 0)

/-- Row indices of the trial's deduplicated cues:
`cue_mask = [cues2ids[cue] for cue in trial_cues]` followed by
`cue_mask = list(set(cue_mask))` (src/ndl.py lines 312-314 and 342). A cue
symbol absent from `cueIds` would raise a `KeyError` in the source; the model
keeps only known cues, and theorem C9 shows the two behaviours never differ on
mappings built from the corpus itself. -/
def cueMask (cueIds : List String) (trialCues : List String) : List ℕ :=
  ((dedupFirst trialCues).filter (fun s => decide (s ∈ cueIds))).map
    (fun s => cueIds.indexOf s)

/-- Columnwise sum of the matrix rows selected by `mask`:
`total_v = np.sum(weight_matrix[cue_mask], axis=0)` (src/ndl.py line 322).
A row index out of range reads as a zero row; the run only selects rows that
exist. -/
def totalV (w : Weights) (mask : List ℕ) (nOut : ℕ) : List ℚ :=
  mask.foldl
    (fun acc c => List.zipWith (fun x y => x + y) acc (w.getD c (List.replicate nOut 0)))
    (List.replicate nOut 0)

/-- Guard of the overflow branch: `total_v[total_v > lam].any()`
(src/ndl.py line 323). NumPy `any` tests truthiness of the selected entries,
so the guard fires exactly when some entry exceeding `lam` is nonzero, not
when an exceeding entry merely exists. -/
def overflowWarned (lam : ℚ) (v : List ℚ) : Bool :=
  v.any (fun x => decide (lam < x ∧ x ≠ 0))

/-- Total activation vector after the defensive clamp
(src/ndl.py lines 323-328): when the guard fires, every entry exceeding `lam`
is set to `lam` by `total_v[total_v > lam] = lam`; otherwise the vector is kept
unchanged. -/
def clampedV (lam : ℚ) (v : List ℚ) : List ℚ :=
  if overflowWarned lam v then v.map (fun x => if lam < x then lam else x) else v

/-- Change in association for every outcome:
`delta_a = (outcome_mask - total_v) * learning_rate` (src/ndl.py line 336). -/
def deltaVec (rate : ℚ) (mask v : List ℚ) : List ℚ :=
  List.zipWith (fun m x => (m - x) * rate) mask v

/-- Add `delta` to every row selected by `mask`, leaving the other rows as they
were: `weight_matrix[cue_mask] += delta_a` (src/ndl.py line 343). -/
def applyDelta (w : Weights) (mask : List ℕ) (delta : List ℚ) : Weights :=
  w.mapIdx (fun r row => if r ∈ mask then List.zipWith (fun x y => x + y) row delta else row)

/-- One Rescorla-Wagner learning trial (loop body of `ndl_compute`,
src/ndl.py lines 299-343; src/rescorla_wagner/compute_activations.py
lines 64-108 is the same code): mask the outcomes, gather the present cues,
sum and clamp their activations, and add the resulting delta to every present
cue's row. -/
def trialStep (cueIds outIds : List String) (alpha beta lam : ℚ) (w : Weights)
    (trialCues trialOutcomes : List String) : Weights :=
  applyDelta w (cueMask cueIds trialCues)
    (deltaVec (alpha * beta) (outcomeMask outIds lam trialOutcomes)
      (clampedV lam (totalV w (cueMask cueIds trialCues) outIds.length)))

/-- Insert or overwrite a key in an association list, preserving the position of
an existing key (keys are unique by construction, as in a Python dict):
models dict assignment `d[k] = v`. -/
def insertKV {α : Type} : List (ℕ × α) → ℕ → α → List (ℕ × α)
  | [], k, v => [(k, v)]
  | p :: rest, k, v => if p.1 = k then (k, v) :: rest else p :: insertKV rest k v

/-- Lookup in an association list: models Python dict indexing and the dict
`in` test. -/
def lookupKV {α : Type} : List (ℕ × α) → ℕ → Option α
  | [], _ => none
  | p :: rest, k => if p.1 = k then some p.2 else lookupKV rest k

/-- Checkpoint boundary map
`check_points = {int(np.floor(total_utterances / 100 * n)): n for n in indices}`
(src/ndl.py line 297): key is the trial count `total * n / 100` (exact integer
arithmetic models the floor), value the percentage `n`; a later percentage
hitting an occupied key overwrites it, as in a Python dict comprehension. -/
def checkPoints (total : ℕ) (indices : List ℕ) : List (ℕ × ℕ) :=
  indices.foldl (fun acc n => insertKV acc (total * n / 100) n) []

/-- Record that the dictionary slot of percentage `p` has been written by
`weight_matrices[check_points[i+1]] = weight_matrix` (src/ndl.py line 350).
Only the set of written keys needs recording: the value stored by the source is
a reference to the single array it keeps mutating in place, never a copy, so at
function return every written slot holds the final matrix. -/
def storeP (stored : List ℕ) (p : ℕ) : List ℕ :=
  if p ∈ stored then stored else stored ++ [p]

/-- Trial loop of `ndl_compute` (src/ndl.py lines 299-350): fold the trials in
corpus order starting at trial index `i`, threading the weight matrix and the
list of checkpoint percentages written so far. -/
def runTrials (cueIds outIds : List String) (alpha beta lam : ℚ) (cps : List (ℕ × ℕ)) :
    ℕ → List (List String × List String) → Weights → List ℕ → Weights × List ℕ
  | _, [], w, stored => (w, stored)
  | i, t :: rest, w, stored =>
      runTrials cueIds outIds alpha beta lam cps (i + 1) rest
        (trialStep cueIds outIds alpha beta lam w t.1 t.2)
        (match lookupKV cps (i + 1) with
          | some p => storeP stored p
          | none => stored)

/-- Result of one full learning run: final matrix, checkpoint percentages
written during the loop, and the two id lists. -/
structure RunResult where
  finalW : Weights
  stored : List ℕ
  cueIds : List String
  outIds : List String
deriving Repr, DecidableEq

/-- Full learning run over a corpus (src/ndl.py lines 277-350): id assignment by
`get_cues_and_outcomes`, the zero matrix
`np.zeros((len(cues2ids), len(outcomes2ids)))`, the boundary map, and the trial
loop over `range(len(corpus[0]))` reading `corpus[0][i]` and `corpus[1][i]`. -/
def learnRun (c : Corpus) (alpha beta lam : ℚ) (indices : List ℕ) : RunResult :=
  let cueIds := distinctSymbols c.cueLists
  let outIds := distinctSymbols c.outcomeLists
  let w0 : Weights := List.replicate cueIds.length (List.replicate outIds.length 0)
  let cps := checkPoints c.cueLists.length indices
  let r := runTrials cueIds outIds alpha beta lam cps 0 (c.cueLists.zip c.outcomeLists) w0 []
  ⟨r.1, r.2, cueIds, outIds⟩

/-- Return value of `ndl_compute` (src/ndl.py lines 247-352): the incoming
dictionary `weight_matrices` extended with one entry per checkpoint slot written
during the loop. The source stores, in each slot, a reference to the one array
it keeps mutating in place (line 350 has no copy), so at return every slot
written during the loop holds the final matrix; the model makes this aliasing
explicit by binding every written percentage to the final matrix. -/
def ndl_compute (c : Corpus) (alpha beta lam : ℚ) (indices : List ℕ)
    (weight_matrices : List (ℕ × Weights)) :
    List (ℕ × Weights) × List String × List String :=
  let r := learnRun c alpha beta lam indices
  (r.stored.foldl (fun acc p => insertKV acc p r.finalW) weight_matrices, r.cueIds, r.outIds)

/-- Return value of `compute_activations`
(src/rescorla_wagner/compute_activations.py lines 11-117): identical to
`ndl_compute` except that the checkpoint dictionary starts empty inside the
call (line 49 and line 115 mirror lines 285 and 350 of src/ndl.py). -/
def compute_activations (c : Corpus) (alpha beta lam : ℚ) (indices : List ℕ) :
    List (ℕ × Weights) × List String × List String :=
  ndl_compute c alpha beta lam indices []

/-- Checkpoint percentages requested by `ndl`
(src/rescorla_wagner/ndl.py line 80): `np.linspace(10, 100, 10)` when
longitudinal, else `[100]`. -/
def ndlIndices (longitudinal : Bool) : List ℕ :=
  if longitudinal then (List.range 10).map (fun k => 10 * (k + 1)) else [100]

/-- Checkpoint percentages requested by `discriminative_learner`
(src/ndl.py lines 406-409): `np.linspace(5, 100, 20)` when longitudinal, else
`[100]`. -/
def dlIndices (longitudinal : Bool) : List ℕ :=
  if longitudinal then (List.range 20).map (fun k => 5 * (k + 1)) else [100]

/-- Abstraction of the files the drivers consult on disk: whether the matrix
file of a given percentage exists, its contents, and the contents of the shared
cueIDs.json and outcomeIDs.json files read by `matrix.load` and `ndl_load`. -/
structure Disk where
  hasFile : ℕ → Bool
  matrixAt : ℕ → Weights
  diskCues : List String
  diskOuts : List String

/-- Loading loop of `ndl` (src/rescorla_wagner/ndl.py lines 88-96): walk the
requested percentages in order; an existing file is loaded into the dictionary
(each `load` call also re-reads the shared id files, rebinding both id
mappings), a missing one is appended to `missing_indices`. The state is
(loaded dictionary, (cue ids, outcome ids), missing list), starting from two
empty mappings as on line 89. -/
def ndlScan (d : Disk) (indices : List ℕ) :
    List (ℕ × Weights) × (List String × List String) × List ℕ :=
  indices.foldl
    (fun st idx =>
      if d.hasFile idx then
        (insertKV st.1 idx (d.matrixAt idx), (d.diskCues, d.diskOuts), st.2.2)
      else (st.1, st.2.1, st.2.2 ++ [idx]))
    ([], ([], []), [])

/-- Driver `ndl` (src/rescorla_wagner/ndl.py lines 29-122): load whatever
checkpoint files exist; if nothing is missing return the loaded data, otherwise
discard it and return `compute_activations` run on the missing percentages only
(line 101 rebinds all three results). -/
def ndl (d : Disk) (c : Corpus) (alpha beta lam : ℚ) (longitudinal : Bool) :
    List (ℕ × Weights) × List String × List String :=
  let st := ndlScan d (ndlIndices longitudinal)
  if st.2.2.isEmpty then (st.1, st.2.1.1, st.2.1.2)
  else compute_activations c alpha beta lam st.2.2

/-- Completeness test `file_exists` (src/ndl.py lines 201-213): true exactly
when every requested file is on disk. -/
def file_exists (d : Disk) (indices : List ℕ) : Bool :=
  indices.all (fun idx => d.hasFile idx)

/-- Loading branch `ndl_load` (src/ndl.py lines 219-241): read the shared id
files once and one matrix per requested percentage into the incoming
dictionary. -/
def ndl_load (d : Disk) (indices : List ℕ) (weight_matrices : List (ℕ × Weights)) :
    List (ℕ × Weights) × List String × List String :=
  (indices.foldl (fun acc idx => insertKV acc idx (d.matrixAt idx)) weight_matrices,
    d.diskCues, d.diskOuts)

/-- Driver `discriminative_learner` (src/ndl.py lines 358-445): if every
requested checkpoint file exists, load and return them; otherwise run
`ndl_compute` on the full requested list, the incoming dictionary being empty
(line 403). -/
def discriminative_learner (d : Disk) (c : Corpus) (alpha beta lam : ℚ)
    (longitudinal : Bool) : List (ℕ × Weights) × List String × List String :=
  if file_exists d (dlIndices longitudinal) then ndl_load d (dlIndices longitudinal) []
  else ndl_compute c alpha beta lam (dlIndices longitudinal) []

/-- Cue symbol a of the two-trial example corpus. -/
def symA : String := "a"

/-- Cue symbol b of the two-trial example corpus. -/
def symB : String := "b"

/-- Cue symbol c of the two-trial example corpus. -/
def symC : String := "c"

/-- Outcome symbol X of the two-trial example corpus. -/
def symX : String := "X"

/-- Outcome symbol Y of the two-trial example corpus. -/
def symY : String := "Y"

/-- Two-trial example corpus of the specification: trial 1 has cues a, b and
outcome X; trial 2 has cues b, c and outcome Y. -/
def literalCorpus : Corpus :=
  ⟨[[symA, symB], [symB, symC]], [[symX], [symY]]⟩

/-- Matrix entry addressed by cue name and outcome name through the id lists. -/
def entry (w : Weights) (cueIds outIds : List String) (cue outc : String) : ℚ :=
  (w.getD (cueIds.indexOf cue) []).getD (outIds.indexOf outc) 0

/-- Sum of the absolute applied updates of one trial over every updated cell:
the same delta vector is added to each of the `|C|` selected rows (src/ndl.py
line 343), so the total magnitude over all `(c, j)` cells is the selected row
count times the absolute sum of `delta_a`. -/
def appliedDeltaTotal (cueIds outIds : List String) (alpha beta lam : ℚ) (w : Weights)
    (trialCues trialOutcomes : List String) : ℚ :=
  ((cueMask cueIds trialCues).length : ℚ) *
    ((deltaVec (alpha * beta) (outcomeMask outIds lam trialOutcomes)
        (clampedV lam (totalV w (cueMask cueIds trialCues) outIds.length))).map
      (fun x => |x|)).sum

/-- Disk state on which only the 100 percent checkpoint file exists. -/
def diskOnly100 : Disk :=
  ⟨fun k => k == 100, fun _ => [], [], []⟩

/-- Disk state on which every checkpoint file exists. -/
def diskAll : Disk :=
  ⟨fun _ => true, fun _ => [[5, 7], [11, 13]], [symA, symB], [symX, symY]⟩

/-! ### Concrete evaluation of the two-trial example run -/

theorem learnRun_literal_100 :
    learnRun literalCorpus (1/10) (1/10) 1 [100] =
      ⟨[[1/100, 0], [99/10000, 1/100], [-1/10000, 1/100]], [100],
        [symA, symB, symC], [symX, symY]⟩ := by
  simp +decide [learnRun, runTrials, trialStep, applyDelta, deltaVec, clampedV, overflowWarned,
    totalV, cueMask, outcomeMask, dedupFirst, insertDistinct, distinctSymbols, checkPoints,
    insertKV, lookupKV, storeP, literalCorpus, symA, symB, symC, symX, symY, List.mapIdx,
    List.mapIdx.go]
  norm_num [List.range_succ]

theorem learnRun_literal_50_100 :
    learnRun literalCorpus (1/10) (1/10) 1 [50, 100] =
      ⟨[[1/100, 0], [99/10000, 1/100], [-1/10000, 1/100]], [50, 100],
        [symA, symB, symC], [symX, symY]⟩ := by
  simp +decide [learnRun, runTrials, trialStep, applyDelta, deltaVec, clampedV, overflowWarned,
    totalV, cueMask, outcomeMask, dedupFirst, insertDistinct, distinctSymbols, checkPoints,
    insertKV, lookupKV, storeP, literalCorpus, symA, symB, symC, symX, symY, List.mapIdx,
    List.mapIdx.go]
  norm_num [List.range_succ]

theorem trialStep_literal_first :
    trialStep [symA, symB, symC] [symX, symY] (1/10) (1/10) 1
        [[0, 0], [0, 0], [0, 0]] [symA, symB] [symX] =
      [[1/100, 0], [1/100, 0], [0, 0]] := by
  simp +decide [trialStep, applyDelta, deltaVec, clampedV, overflowWarned, totalV, cueMask,
    outcomeMask, dedupFirst, insertDistinct, symA, symB, symC, symX, symY, List.mapIdx,
    List.mapIdx.go]
  norm_num [List.range_succ]

/-! ### Association-list dictionary lemmas -/

theorem lookupKV_insertKV {α : Type} (acc : List (ℕ × α)) (k k2 : ℕ) (v : α) :
    lookupKV (insertKV acc k v) k2 = if k2 = k then some v else lookupKV acc k2 := by
  induction acc with
  | nil =>
      by_cases h : k2 = k
      · subst h; simp [insertKV, lookupKV]
      · simp [insertKV, lookupKV, h, Ne.symm h]
  | cons p rest ih =>
      obtain ⟨k1, v1⟩ := p
      by_cases hp : k1 = k
      · subst hp
        by_cases h : k2 = k1
        · subst h; simp [insertKV, lookupKV]
        · simp [insertKV, lookupKV, h, Ne.symm h]
      · by_cases h2 : k2 = k
        · subst h2
          simp [insertKV, lookupKV, hp, ih, Ne.symm hp]
        · by_cases h1 : k1 = k2
          · subst h1
            simp [insertKV, lookupKV, hp, h2, ih]
          · simp [insertKV, lookupKV, hp, h1, h2, ih]

theorem lookupKV_foldl_const {α : Type} (ps : List ℕ) (wv : α) (acc : List (ℕ × α)) (k : ℕ) :
    lookupKV (ps.foldl (fun a p => insertKV a p wv) acc) k =
      if k ∈ ps then some wv else lookupKV acc k := by
  induction ps generalizing acc with
  | nil => simp
  | cons p ps ih =>
      simp only [List.foldl_cons, ih, lookupKV_insertKV, List.mem_cons]
      by_cases h1 : k ∈ ps <;> by_cases h2 : k = p <;> simp [h1, h2]

theorem lookupKV_foldl_insertKey (key : ℕ → ℕ) (indices : List ℕ) (acc : List (ℕ × ℕ))
    (k : ℕ) :
    lookupKV (indices.foldl (fun a n => insertKV a (key n) n) acc) k =
      (indices.reverse.find? (fun n => decide (key n = k))).or (lookupKV acc k) := by
  induction indices generalizing acc with
  | nil => simp
  | cons n indices ih =>
      simp only [List.foldl_cons, ih, List.reverse_cons, List.find?_append, Option.or_assoc]
      congr 1
      by_cases h : key n = k
      · subst h; simp [lookupKV_insertKV, List.find?]
      · simp [lookupKV_insertKV, List.find?, h, Ne.symm h]

theorem lookupKV_checkPoints (total : ℕ) (indices : List ℕ) (k : ℕ) :
    lookupKV (checkPoints total indices) k =
      indices.reverse.find? (fun n => decide (total * n / 100 = k)) := by
  simpa [lookupKV] using
    lookupKV_foldl_insertKey (fun n => total * n / 100) indices [] k

theorem checkPoints_lookup_mem (total : ℕ) (indices : List ℕ) (k n : ℕ)
    (h : lookupKV (checkPoints total indices) k = some n) :
    n ∈ indices ∧ total * n / 100 = k := by
  rw [lookupKV_checkPoints] at h
  refine ⟨List.mem_reverse.mp (List.mem_of_find?_eq_some h), ?_⟩
  have := List.find?_some h
  simpa using this

/-! ### Distinct-symbol (vocabulary) lemmas -/

theorem mem_foldl_insertDistinct (l : List String) (acc : List String) (t : String) :
    t ∈ l.foldl insertDistinct acc ↔ t ∈ acc ∨ t ∈ l := by
  induction l generalizing acc with
  | nil => simp
  | cons x l ih =>
      simp only [List.foldl_cons, ih, insertDistinct, List.mem_cons]
      by_cases hx : x ∈ acc
      · simp only [if_pos hx]
        constructor
        · rintro (h | h)
          · exact Or.inl h
          · exact Or.inr (Or.inr h)
        · rintro (h | rfl | h)
          · exact Or.inl h
          · exact Or.inl hx
          · exact Or.inr h
      · simp only [if_neg hx, List.mem_append, List.mem_singleton, or_assoc]

theorem mem_dedupFirst (l : List String) (t : String) : t ∈ dedupFirst l ↔ t ∈ l := by
  simp [dedupFirst, mem_foldl_insertDistinct]

theorem mem_foldl_distinct (ls : List (List String)) (acc : List String) (t : String) :
    t ∈ ls.foldl (fun a l => l.foldl insertDistinct a) acc ↔ t ∈ acc ∨ ∃ l ∈ ls, t ∈ l := by
  induction ls generalizing acc with
  | nil => simp
  | cons l ls ih =>
      simp only [List.foldl_cons, ih, mem_foldl_insertDistinct, List.mem_cons, or_assoc]
      aesop

theorem mem_distinctSymbols (ls : List (List String)) (t : String) :
    t ∈ distinctSymbols ls ↔ ∃ l ∈ ls, t ∈ l := by
  simp [distinctSymbols, mem_foldl_distinct]

theorem nodup_insertDistinct (acc : List String) (s : String) (h : acc.Nodup) :
    (insertDistinct acc s).Nodup := by
  unfold insertDistinct
  split
  · exact h
  · rename_i hs
    simp [List.nodup_append, h, hs]

theorem nodup_foldl_insertDistinct (l acc : List String) (h : acc.Nodup) :
    (l.foldl insertDistinct acc).Nodup := by
  induction l generalizing acc with
  | nil => simpa
  | cons x l ih => exact ih _ (nodup_insertDistinct _ _ h)

theorem nodup_foldl_distinct (ls : List (List String)) (acc : List String) (h : acc.Nodup) :
    (ls.foldl (fun a l => l.foldl insertDistinct a) acc).Nodup := by
  induction ls generalizing acc with
  | nil => simpa
  | cons l ls ih => exact ih _ (nodup_foldl_insertDistinct _ _ h)

theorem distinctSymbols_nodup (ls : List (List String)) : (distinctSymbols ls).Nodup :=
  nodup_foldl_distinct ls [] (by simp)

/-! ### Trial-loop checkpoint lemmas -/

theorem mem_storeP (stored : List ℕ) (q p : ℕ) (h : p ∈ storeP stored q) :
    p ∈ stored ∨ p = q := by
  unfold storeP at h
  split at h
  · exact Or.inl h
  · rcases List.mem_append.mp h with h | h
    · exact Or.inl h
    · simp at h; exact Or.inr h

theorem storeP_length (stored : List ℕ) (q : ℕ) :
    (storeP stored q).length ≤ stored.length + 1 := by
  unfold storeP
  split <;> simp

theorem mem_runTrials_stored (cueIds outIds : List String) (alpha beta lam : ℚ)
    (cps : List (ℕ × ℕ)) (trials : List (List String × List String)) (i : ℕ) (w : Weights)
    (stored : List ℕ) (p : ℕ)
    (hp : p ∈ (runTrials cueIds outIds alpha beta lam cps i trials w stored).2) :
    p ∈ stored ∨ ∃ t, i < t ∧ t ≤ i + trials.length ∧ lookupKV cps t = some p := by
  induction trials generalizing i w stored with
  | nil => exact Or.inl (by simpa [runTrials] using hp)
  | cons tr rest ih =>
      cases hm : lookupKV cps (i + 1) with
      | none =>
          rw [runTrials, hm] at hp
          rcases ih _ _ _ hp with h | ⟨t, h1, h2, h3⟩
          · exact Or.inl h
          · exact Or.inr ⟨t, by omega, by simp; omega, h3⟩
      | some q =>
          rw [runTrials, hm] at hp
          rcases ih _ _ _ hp with h | ⟨t, h1, h2, h3⟩
          · rcases mem_storeP _ _ _ h with h | rfl
            · exact Or.inl h
            · exact Or.inr ⟨i + 1, by omega, by simp, hm⟩
          · exact Or.inr ⟨t, by omega, by simp; omega, h3⟩

theorem runTrials_stored_length (cueIds outIds : List String) (alpha beta lam : ℚ)
    (cps : List (ℕ × ℕ)) (trials : List (List String × List String)) (i : ℕ) (w : Weights)
    (stored : List ℕ) :
    (runTrials cueIds outIds alpha beta lam cps i trials w stored).2.length ≤
      stored.length + trials.length := by
  induction trials generalizing i w stored with
  | nil => simp [runTrials]
  | cons tr rest ih =>
      cases hm : lookupKV cps (i + 1) with
      | none =>
          rw [runTrials, hm]
          exact (ih _ _ _).trans (by simp)
      | some q =>
          rw [runTrials, hm]
          refine (ih _ _ _).trans ?_
          have := storeP_length stored q
          simp
          omega

/-! ### Vector and matrix lemmas -/

theorem mem_zipWith {α β γ : Type} {f : α → β → γ} {a : List α} {b : List β} {z : γ}
    (hz : z ∈ List.zipWith f a b) : ∃ x ∈ a, ∃ y ∈ b, z = f x y := by
  induction a generalizing b with
  | nil => simp at hz
  | cons x a ih =>
      cases b with
      | nil => simp at hz
      | cons y b =>
          rcases List.mem_cons.mp hz with h | h
          · exact ⟨x, by simp, y, by simp, h⟩
          · obtain ⟨x2, hx2, y2, hy2, hf⟩ := ih h
            exact ⟨x2, by simp [hx2], y2, by simp [hy2], hf⟩

theorem getD_row_length (w : Weights) (nOut : ℕ) (c : ℕ)
    (hw : ∀ row ∈ w, row.length = nOut) :
    (w.getD c (List.replicate nOut 0)).length = nOut := by
  rcases h : w[c]? with _ | row
  · simp [List.getD_eq_getElem?_getD, h]
  · have hm : row ∈ w := by
      have hc : c < w.length := by
        by_contra hc
        rw [List.getElem?_eq_none (by omega)] at h
        exact Option.noConfusion h
      rw [List.getElem?_eq_getElem hc] at h
      obtain rfl : w[c] = row := Option.some.inj h
      exact List.getElem_mem hc
    simp [List.getD_eq_getElem?_getD, h, hw _ hm]

theorem totalV_length (w : Weights) (mask : List ℕ) (nOut : ℕ)
    (hw : ∀ row ∈ w, row.length = nOut) : (totalV w mask nOut).length = nOut := by
  suffices h : ∀ acc : List ℚ, acc.length = nOut →
      (mask.foldl
        (fun acc c => List.zipWith (fun x y => x + y) acc (w.getD c (List.replicate nOut 0)))
        acc).length = nOut by
    exact h (List.replicate nOut 0) (by simp)
  intro acc hacc
  induction mask generalizing acc with
  | nil => simpa using hacc
  | cons c mask ih =>
      simp only [List.foldl_cons]
      exact ih _ (by rw [List.length_zipWith, hacc, getD_row_length w nOut c hw, min_self])

theorem clampedV_length (lam : ℚ) (v : List ℚ) : (clampedV lam v).length = v.length := by
  unfold clampedV
  split <;> simp

theorem clampedV_nonneg_le (lam : ℚ) (v : List ℚ) (hlam : 0 ≤ lam) (hv : ∀ x ∈ v, 0 ≤ x) :
    ∀ y ∈ clampedV lam v, 0 ≤ y ∧ y ≤ lam := by
  intro y hy
  unfold clampedV at hy
  split at hy
  · obtain ⟨x, hx, hfx⟩ := List.mem_map.mp hy
    by_cases hlx : lam < x
    · rw [if_pos hlx] at hfx
      exact ⟨hfx ▸ hlam, le_of_eq hfx.symm⟩
    · rw [if_neg hlx] at hfx
      exact ⟨hfx ▸ hv x hx, hfx ▸ le_of_not_lt hlx⟩
  · rename_i hwarn
    refine ⟨hv y hy, ?_⟩
    by_contra hgt
    push_neg at hgt
    refine hwarn ?_
    unfold overflowWarned
    rw [List.any_eq_true]
    refine ⟨y, hy, by simp [hgt]; intro h; rw [h] at hgt; exact absurd hlam (not_le.mpr hgt)⟩

theorem clampedV_getD_of_gt (lam : ℚ) (v : List ℚ) (j : ℕ) (hlam : 0 ≤ lam)
    (hj : j < v.length) (hgt : lam < v.getD j 0) :
    (clampedV lam v).getD j 0 = lam ∧ overflowWarned lam v = true := by
  have hget : v.getD j 0 = v[j] := by simp [List.getD_eq_getElem?_getD, List.getElem?_eq_getElem hj]
  have hmem : v[j] ∈ v := List.getElem_mem hj
  have hwarn : overflowWarned lam v = true := by
    unfold overflowWarned
    rw [List.any_eq_true]
    refine ⟨v[j], hmem, ?_⟩
    rw [hget] at hgt
    simp only [decide_eq_true_eq]
    refine ⟨hgt, ?_⟩
    intro h
    rw [h] at hgt
    exact absurd hlam (not_le.mpr hgt)
  refine ⟨?_, hwarn⟩
  unfold clampedV
  rw [if_pos hwarn]
  rw [hget] at hgt
  simp [List.getD_eq_getElem?_getD, List.getElem?_map, List.getElem?_eq_getElem hj, hgt]

theorem outcomeMask_length (outIds : List String) (lam : ℚ) (tout : List String) :
    (outcomeMask outIds lam tout).length = outIds.length := by
  simp [outcomeMask]

theorem outcomeMask_mem (outIds : List String) (lam : ℚ) (tout : List String) :
    ∀ m ∈ outcomeMask outIds lam tout, m = 0 ∨ m = lam := by
  intro m hm
  obtain ⟨j, _, hf⟩ := List.mem_map.mp hm
  by_cases h : tout.any (fun o => outIds.indexOf o == j)
  · rw [if_pos h] at hf; exact Or.inr hf.symm
  · rw [if_neg h] at hf; exact Or.inl hf.symm

theorem outcomeMask_empty (outIds : List String) (lam : ℚ) :
    outcomeMask outIds lam [] = List.replicate outIds.length 0 := by
  simp [outcomeMask, List.map_const']

theorem deltaVec_nonpos (rate : ℚ) (mask v : List ℚ) (hrate : 0 ≤ rate)
    (hmask : ∀ m ∈ mask, m = 0) (hv : ∀ x ∈ v, 0 ≤ x) :
    ∀ x ∈ deltaVec rate mask v, x ≤ 0 := by
  intro x hx
  obtain ⟨m, hm, y, hy, rfl⟩ := mem_zipWith hx
  have hm0 : m = 0 := hmask m hm
  have hy0 : 0 ≤ y := hv y hy
  rw [hm0]
  nlinarith

theorem getElem?_applyDelta (w : Weights) (mask : List ℕ) (d : List ℚ) (r : ℕ) :
    (applyDelta w mask d)[r]? =
      (w[r]?).map
        (fun row => if r ∈ mask then List.zipWith (fun x y => x + y) row d else row) := by
  simp [applyDelta, List.getElem?_mapIdx]

theorem applyDelta_getD_not_mem (w : Weights) (mask : List ℕ) (d : List ℚ) (r : ℕ)
    (hr : r ∉ mask) : (applyDelta w mask d).getD r [] = w.getD r [] := by
  rw [List.getD_eq_getElem?_getD, List.getD_eq_getElem?_getD, getElem?_applyDelta]
  cases w[r]? <;> simp [hr]

theorem applyDelta_getD_mem (w : Weights) (mask : List ℕ) (d : List ℚ) (r : ℕ)
    (hr : r ∈ mask) (hlt : r < w.length) :
    (applyDelta w mask d).getD r [] =
      List.zipWith (fun x y => x + y) (w.getD r []) d := by
  rw [List.getD_eq_getElem?_getD, List.getD_eq_getElem?_getD, getElem?_applyDelta,
    List.getElem?_eq_getElem hlt]
  simp [hr]

theorem zipWith_add_getD_le (row d : List ℚ) (j : ℕ) (hlen : d.length = row.length)
    (hd : ∀ x ∈ d, x ≤ 0) :
    (List.zipWith (fun x y => x + y) row d).getD j 0 ≤ row.getD j 0 := by
  induction row generalizing d j with
  | nil => simp
  | cons a row ih =>
      cases d with
      | nil => simp at hlen
      | cons b d =>
          cases j with
          | zero =>
              have hb : b ≤ 0 := hd b (by simp)
              simpa using by linarith
          | succ j =>
              simpa using ih d j (by simpa using hlen) (fun x hx => hd x (by simp [hx]))

/-! ### Driver lemmas -/

theorem ndlScan_missing_go (d : Disk) (indices : List ℕ) :
    ∀ st : List (ℕ × Weights) × (List String × List String) × List ℕ,
    (indices.foldl
      (fun st idx =>
        if d.hasFile idx then
          (insertKV st.1 idx (d.matrixAt idx), (d.diskCues, d.diskOuts), st.2.2)
        else (st.1, st.2.1, st.2.2 ++ [idx])) st).2.2 =
      st.2.2 ++ indices.filter (fun i => !(d.hasFile i)) := by
  induction indices with
  | nil => intro st; simp
  | cons idx indices ih =>
      intro st
      by_cases h : d.hasFile idx <;>
        simp [h, ih, List.filter_cons, List.append_assoc]

theorem ndlScan_missing (d : Disk) (indices : List ℕ) :
    (ndlScan d indices).2.2 = indices.filter (fun i => !(d.hasFile i)) := by
  simpa [ndlScan] using ndlScan_missing_go d indices ([], ([], []), [])

theorem ndlScan_all_go (d : Disk) (indices : List ℕ) :
    ∀ st : List (ℕ × Weights) × (List String × List String) × List ℕ,
    (∀ i ∈ indices, d.hasFile i = true) →
    (indices.foldl
      (fun st idx =>
        if d.hasFile idx then
          (insertKV st.1 idx (d.matrixAt idx), (d.diskCues, d.diskOuts), st.2.2)
        else (st.1, st.2.1, st.2.2 ++ [idx])) st) =
      (indices.foldl (fun acc idx => insertKV acc idx (d.matrixAt idx)) st.1,
        (if indices = [] then st.2.1 else (d.diskCues, d.diskOuts)), st.2.2) := by
  induction indices with
  | nil => intro st _; simp
  | cons idx indices ih =>
      intro st hall
      have hidx : d.hasFile idx = true := hall idx (by simp)
      simp only [List.foldl_cons, hidx, if_true]
      rw [ih _ (fun i hi => hall i (by simp [hi]))]
      by_cases hnil : indices = [] <;> simp [hnil]

theorem ndl_all_exist (d : Disk) (c : Corpus) (alpha beta lam : ℚ) (longitudinal : Bool)
    (hall : ∀ i ∈ ndlIndices longitudinal, d.hasFile i = true) :
    ndl d c alpha beta lam longitudinal =
      ((ndlIndices longitudinal).foldl (fun acc idx => insertKV acc idx (d.matrixAt idx)) [],
        d.diskCues, d.diskOuts) := by
  have hne : ndlIndices longitudinal ≠ [] := by
    cases longitudinal <;> simp [ndlIndices]
  have hscan := ndlScan_all_go d (ndlIndices longitudinal) ([], ([], []), []) hall
  simp only [ndl, ndlScan, hscan, if_neg hne]
  simp

theorem ndl_missing (d : Disk) (c : Corpus) (alpha beta lam : ℚ) (longitudinal : Bool)
    (hmiss : (ndlIndices longitudinal).filter (fun i => !(d.hasFile i)) ≠ []) :
    ndl d c alpha beta lam longitudinal =
      compute_activations c alpha beta lam
        ((ndlIndices longitudinal).filter (fun i => !(d.hasFile i))) := by
  have hscan := ndlScan_missing d (ndlIndices longitudinal)
  simp only [ndl, hscan]
  simp [List.isEmpty_iff, hmiss]

theorem ndl_compute_lookup (c : Corpus) (alpha beta lam : ℚ) (indices : List ℕ)
    (init : List (ℕ × Weights)) (k : ℕ) :
    lookupKV (ndl_compute c alpha beta lam indices init).1 k =
      if k ∈ (learnRun c alpha beta lam indices).stored
      then some (learnRun c alpha beta lam indices).finalW
      else lookupKV init k := by
  simp [ndl_compute, lookupKV_foldl_const]

theorem learnRun_stored_subset (c : Corpus) (alpha beta lam : ℚ) (indices : List ℕ) (p : ℕ)
    (hp : p ∈ (learnRun c alpha beta lam indices).stored) : p ∈ indices := by
  simp only [learnRun] at hp
  rcases mem_runTrials_stored _ _ _ _ _ _ _ _ _ _ _ hp with h | ⟨t, _, _, h3⟩
  · simp at h
  · exact (checkPoints_lookup_mem _ _ _ _ h3).1

theorem learnRun_stored_key_pos (c : Corpus) (alpha beta lam : ℚ) (indices : List ℕ) (p : ℕ)
    (hp : p ∈ (learnRun c alpha beta lam indices).stored) :
    c.cueLists.length * p / 100 ≠ 0 := by
  simp only [learnRun] at hp
  rcases mem_runTrials_stored _ _ _ _ _ _ _ _ _ _ _ hp with h | ⟨t, h1, _, h3⟩
  · simp at h
  · have := (checkPoints_lookup_mem _ _ _ _ h3).2
    omega

theorem learnRun_stored_length (c : Corpus) (alpha beta lam : ℚ) (indices : List ℕ) :
    (learnRun c alpha beta lam indices).stored.length ≤ c.cueLists.length := by
  simp only [learnRun]
  refine (runTrials_stored_length _ _ _ _ _ _ _ _ _ _).trans ?_
  simp [List.length_zip]

/-! ### Claim theorems -/

/-- Claim C1 (code evaluation at the failing input): on the two-trial example
corpus with checkpoints requested at 50 and 100 percent, the dictionary
returned by `ndl_compute` holds, under the key 50, the final matrix — not the
trial-1 intermediate matrix, which differs from it. The source stores a
reference to the one array it keeps mutating (src/ndl.py line 350,
src/rescorla_wagner/compute_activations.py line 115, no `copy()`), so the
snapshot taken at the 50 percent boundary is altered by the later trial. -/
theorem C1_checkpoint_alias :
    lookupKV (ndl_compute literalCorpus (1/10) (1/10) 1 [50, 100] []).1 50 =
        some [[1/100, 0], [99/10000, 1/100], [-1/10000, 1/100]] ∧
    lookupKV (ndl_compute literalCorpus (1/10) (1/10) 1 [50, 100] []).1 100 =
        some [[1/100, 0], [99/10000, 1/100], [-1/10000, 1/100]] ∧
    trialStep [symA, symB, symC] [symX, symY] (1/10) (1/10) 1
        [[0, 0], [0, 0], [0, 0]] [symA, symB] [symX] =
      [[1/100, 0], [1/100, 0], [0, 0]] ∧
    ([[1/100, 0], [99/10000, 1/100], [-1/10000, 1/100]] : Weights) ≠
      [[1/100, 0], [1/100, 0], [0, 0]] := by
  refine ⟨?_, ?_, trialStep_literal_first, by norm_num⟩
  · rw [ndl_compute_lookup]
    simp only [learnRun_literal_50_100]
    simp
  · rw [ndl_compute_lookup]
    simp only [learnRun_literal_50_100]
    simp

/-- Claim C2: on the literal two-trial corpus (cues a,b with outcome X, then
cues b,c with outcome Y) with alpha = beta = 1/10 and lambda = 1, the final
matrix produced by the learner has exactly the entries stated in the
specification: a-X = 1/100, a-Y = 0, b-X = 99/10000, c-X = -1/10000,
b-Y = 1/100, c-Y = 1/100 (exact rational arithmetic). -/
theorem C2_literal_final_matrix :
    entry (learnRun literalCorpus (1/10) (1/10) 1 [100]).finalW
        (learnRun literalCorpus (1/10) (1/10) 1 [100]).cueIds
        (learnRun literalCorpus (1/10) (1/10) 1 [100]).outIds symA symX = 1/100 ∧
    entry (learnRun literalCorpus (1/10) (1/10) 1 [100]).finalW
        (learnRun literalCorpus (1/10) (1/10) 1 [100]).cueIds
        (learnRun literalCorpus (1/10) (1/10) 1 [100]).outIds symA symY = 0 ∧
    entry (learnRun literalCorpus (1/10) (1/10) 1 [100]).finalW
        (learnRun literalCorpus (1/10) (1/10) 1 [100]).cueIds
        (learnRun literalCorpus (1/10) (1/10) 1 [100]).outIds symB symX = 99/10000 ∧
    entry (learnRun literalCorpus (1/10) (1/10) 1 [100]).finalW
        (learnRun literalCorpus (1/10) (1/10) 1 [100]).cueIds
        (learnRun literalCorpus (1/10) (1/10) 1 [100]).outIds symC symX = -1/10000 ∧
    entry (learnRun literalCorpus (1/10) (1/10) 1 [100]).finalW
        (learnRun literalCorpus (1/10) (1/10) 1 [100]).cueIds
        (learnRun literalCorpus (1/10) (1/10) 1 [100]).outIds symB symY = 1/100 ∧
    entry (learnRun literalCorpus (1/10) (1/10) 1 [100]).finalW
        (learnRun literalCorpus (1/10) (1/10) 1 [100]).cueIds
        (learnRun literalCorpus (1/10) (1/10) 1 [100]).outIds symC symY = 1/100 := by
  simp only [learnRun_literal_100]
  refine ⟨?_, ?_, ?_, ?_, ?_, ?_⟩ <;>
    simp +decide [entry, List.indexOf, List.findIdx, List.findIdx.go, symA, symB, symC,
      symX, symY]

/-- Claim C3 counterexample: with only the 100 percent file on disk and the
longitudinal request [10, 20, ..., 100], the driver `ndl`
(src/rescorla_wagner/ndl.py) returns a dictionary with no entry for the
requested percentage 100 at all: it discards the loaded checkpoint and
recomputes only the missing percentages, so the returned dictionary does not
contain a freshly computed matrix for every requested percentage. -/
theorem C3_counterexample :
    (100 ∈ ndlIndices true) ∧ diskOnly100.hasFile 100 = true ∧
    (10 ∈ ndlIndices true) ∧ diskOnly100.hasFile 10 = false ∧
    lookupKV (ndl diskOnly100 literalCorpus (1/10) (1/10) 1 true).1 100 = none := by
  refine ⟨by decide, by decide, by decide, by decide, ?_⟩
  rw [ndl_missing diskOnly100 literalCorpus (1/10) (1/10) 1 true (by decide)]
  simp only [compute_activations]
  rw [ndl_compute_lookup]
  rw [if_neg]
  · rfl
  · intro h
    have h2 := learnRun_stored_subset _ _ _ _ _ _ h
    revert h2
    decide

/-- Claim C3, amended: when not every requested checkpoint file exists,
`discriminative_learner` (src/ndl.py) recomputes all requested checkpoints
from scratch with the full requested list, whereas `ndl`
(src/rescorla_wagner/ndl.py) discards whatever it loaded and recomputes only
the missing percentages, so its returned dictionary holds freshly computed
matrices for (boundary-reachable) missing percentages only — never a mixture
of loaded and recomputed checkpoints, but also not an entry for every
requested percentage. -/
theorem C3_amended_recompute (d : Disk) (c : Corpus) (alpha beta lam : ℚ)
    (longitudinal : Bool)
    (hdl : file_exists d (dlIndices longitudinal) = false)
    (hndl : (ndlIndices longitudinal).filter (fun i => !(d.hasFile i)) ≠ []) :
    discriminative_learner d c alpha beta lam longitudinal =
        ndl_compute c alpha beta lam (dlIndices longitudinal) [] ∧
    ndl d c alpha beta lam longitudinal =
        compute_activations c alpha beta lam
          ((ndlIndices longitudinal).filter (fun i => !(d.hasFile i))) ∧
    (∀ k, (lookupKV (ndl d c alpha beta lam longitudinal).1 k).isSome = true →
        k ∈ ndlIndices longitudinal ∧ d.hasFile k = false) := by
  have h2 := ndl_missing d c alpha beta lam longitudinal hndl
  refine ⟨by simp [discriminative_learner, hdl], h2, ?_⟩
  intro k hk
  rw [h2] at hk
  simp only [compute_activations] at hk
  rw [ndl_compute_lookup] at hk
  by_cases hmem : k ∈ (learnRun c alpha beta lam
      ((ndlIndices longitudinal).filter (fun i => !(d.hasFile i)))).stored
  · have hsub := learnRun_stored_subset _ _ _ _ _ _ hmem
    have hf := List.mem_filter.mp hsub
    refine ⟨hf.1, ?_⟩
    simpa using hf.2
  · rw [if_neg hmem] at hk
    simp [lookupKV] at hk

/-- Claim C3 amended, witness at a concrete disk and corpus. -/
theorem C3_amended_recompute_witness :
    discriminative_learner diskOnly100 literalCorpus (1/10) (1/10) 1 true =
        ndl_compute literalCorpus (1/10) (1/10) 1 (dlIndices true) [] ∧
    ndl diskOnly100 literalCorpus (1/10) (1/10) 1 true =
        compute_activations literalCorpus (1/10) (1/10) 1
          ((ndlIndices true).filter (fun i => !(diskOnly100.hasFile i))) ∧
    (∀ k, (lookupKV (ndl diskOnly100 literalCorpus (1/10) (1/10) 1 true).1 k).isSome =
          true →
        k ∈ ndlIndices true ∧ diskOnly100.hasFile k = false) :=
  C3_amended_recompute diskOnly100 literalCorpus (1/10) (1/10) 1 true (by decide) (by decide)

/-- Claim C4: when every requested checkpoint file exists on disk, both drivers
return exactly the loaded data (matrices from disk plus the two id mappings)
and never run the learner: the result is the fold of the disk contents alone,
and is therefore identical for any corpus and any learning parameters. -/
theorem C4_full_memoization (d : Disk) (c c2 : Corpus) (alpha beta lam alpha2 beta2 lam2 : ℚ)
    (longitudinal : Bool)
    (hndl : ∀ i ∈ ndlIndices longitudinal, d.hasFile i = true)
    (hdl : ∀ i ∈ dlIndices longitudinal, d.hasFile i = true) :
    ndl d c alpha beta lam longitudinal =
        ((ndlIndices longitudinal).foldl
            (fun acc idx => insertKV acc idx (d.matrixAt idx)) [],
          d.diskCues, d.diskOuts) ∧
    ndl d c alpha beta lam longitudinal = ndl d c2 alpha2 beta2 lam2 longitudinal ∧
    discriminative_learner d c alpha beta lam longitudinal =
        ndl_load d (dlIndices longitudinal) [] ∧
    discriminative_learner d c alpha beta lam longitudinal =
        discriminative_learner d c2 alpha2 beta2 lam2 longitudinal := by
  have h1 := ndl_all_exist d c alpha beta lam longitudinal hndl
  have h1b := ndl_all_exist d c2 alpha2 beta2 lam2 longitudinal hndl
  have h2 : file_exists d (dlIndices longitudinal) = true := by
    simp only [file_exists, List.all_eq_true]
    intro i hi
    exact hdl i hi
  exact ⟨h1, h1.trans h1b.symm, by simp [discriminative_learner, h2],
    by simp [discriminative_learner, h2]⟩

/-- Claim C4, witness at a concrete disk with every file present. -/
theorem C4_full_memoization_witness :
    ndl diskAll literalCorpus 1 1 1 false =
        ((ndlIndices false).foldl
            (fun acc idx => insertKV acc idx (diskAll.matrixAt idx)) [],
          diskAll.diskCues, diskAll.diskOuts) ∧
    ndl diskAll literalCorpus 1 1 1 false = ndl diskAll ⟨[], []⟩ 2 3 5 false ∧
    discriminative_learner diskAll literalCorpus 1 1 1 false =
        ndl_load diskAll (dlIndices false) [] ∧
    discriminative_learner diskAll literalCorpus 1 1 1 false =
        discriminative_learner diskAll ⟨[], []⟩ 2 3 5 false :=
  C4_full_memoization diskAll literalCorpus ⟨[], []⟩ 1 1 1 2 3 5 false
    (by decide) (by decide)

theorem deltaVec_length (rate : ℚ) (mask v : List ℚ) :
    (deltaVec rate mask v).length = min mask.length v.length := by
  simp [deltaVec]

/-- Claim C5 counterexample: with lambda = -1, an outcome whose total
activation is 0 strictly exceeds lambda, yet the guard
`total_v[total_v > lam].any()` does not fire (NumPy `any` tests truthiness and
the only exceeding entry is 0), so no warning is emitted and the value used in
the delta computation is the unclamped 0, not lambda: the trial update drives
the entry to -1 instead of leaving it at 0. The claim fails for lambda < 0. -/
theorem C5_counterexample :
    ((-1 : ℚ) < 0) ∧
    ((-1 : ℚ) < (totalV [[0]] (cueMask [symA] [symA]) [symX].length).getD 0 0) ∧
    overflowWarned (-1) (totalV [[0]] (cueMask [symA] [symA]) [symX].length) = false ∧
    clampedV (-1) (totalV [[0]] (cueMask [symA] [symA]) [symX].length) ≠ [(-1 : ℚ)] ∧
    trialStep [symA] [symX] 1 1 (-1) [[0]] [symA] [symX] = [[-1]] := by
  refine ⟨by norm_num, ?_, ?_, ?_, ?_⟩
  all_goals
    simp +decide [trialStep, applyDelta, deltaVec, clampedV, overflowWarned, totalV, cueMask,
      outcomeMask, dedupFirst, insertDistinct, symA, symX, List.mapIdx, List.mapIdx.go]
  all_goals norm_num [List.range_succ]

/-- Claim C5, amended: for every lambda >= 0, on every trial, every outcome
whose total activation strictly exceeds lambda has its activation replaced by
lambda in the clamped vector that the delta computation consumes, and the
warning branch fires; the update function is total, so the recovery is never
fatal. For lambda < 0 the clamp can be skipped (see the counterexample). -/
theorem C5_amended_clamp (cueIds outIds : List String) (lam : ℚ) (w : Weights)
    (tc : List String) (j : ℕ) (hlam : 0 ≤ lam)
    (hj : j < (totalV w (cueMask cueIds tc) outIds.length).length)
    (hgt : lam < (totalV w (cueMask cueIds tc) outIds.length).getD j 0) :
    (clampedV lam (totalV w (cueMask cueIds tc) outIds.length)).getD j 0 = lam ∧
    overflowWarned lam (totalV w (cueMask cueIds tc) outIds.length) = true :=
  clampedV_getD_of_gt lam _ j hlam hj hgt

/-- Claim C5 amended, witness: a concrete trial with total activation 2 over
lambda = 1 is clamped to 1 and the warning branch fires. -/
theorem C5_amended_clamp_witness :
    (clampedV 1 (totalV [[2]] (cueMask [symA] [symA]) [symX].length)).getD 0 0 = 1 ∧
    overflowWarned 1 (totalV [[2]] (cueMask [symA] [symA]) [symX].length) = true :=
  C5_amended_clamp [symA] [symX] 1 [[2]] [symA] 0 (by norm_num)
    (by simp [totalV, cueMask, dedupFirst, insertDistinct])
    (by simp [totalV, cueMask, dedupFirst, insertDistinct])

/-- Claim C6 counterexample: a first trial with two cues and a single outcome,
alpha = beta = lambda = 1, applies a total update magnitude of 2 over its
updated cells, exceeding the claimed bound
alpha * beta * lambda * (number of outcomes) = 1: the claimed bound omits the
factor |C|. -/
theorem C6_counterexample :
    appliedDeltaTotal [symA, symB] [symX] 1 1 1 [[0], [0]] [symA, symB] [symX] = 2 ∧
    ¬(appliedDeltaTotal [symA, symB] [symX] 1 1 1 [[0], [0]] [symA, symB] [symX] ≤
        1 * 1 * 1 * ((([symX] : List String).length : ℚ))) := by
  have h : appliedDeltaTotal [symA, symB] [symX] 1 1 1 [[0], [0]] [symA, symB] [symX] = 2 := by
    simp +decide [appliedDeltaTotal, deltaVec, clampedV, overflowWarned, totalV, cueMask,
      outcomeMask, dedupFirst, insertDistinct, symA, symB, symX]
    norm_num [List.range_succ]
  refine ⟨h, ?_⟩
  rw [h]
  norm_num

/-- Claim C6, amended: for every trial and all alpha > 0, beta > 0, lambda > 0,
if every pre-update total activation is nonnegative, the total applied update
magnitude over the updated cells is bounded by
alpha * beta * lambda * |C| * |outcomes|, where |C| is the number of updated
rows. The original bound without the |C| factor fails (counterexample above),
and without the nonnegativity hypothesis no multiple of lambda bounds a single
delta. -/
theorem C6_amended_delta_bound (cueIds outIds : List String) (alpha beta lam : ℚ)
    (w : Weights) (tc tout : List String) (halpha : 0 < alpha) (hbeta : 0 < beta)
    (hlam : 0 < lam)
    (hV : ∀ x ∈ totalV w (cueMask cueIds tc) outIds.length, 0 ≤ x) :
    appliedDeltaTotal cueIds outIds alpha beta lam w tc tout ≤
      alpha * beta * lam * ((cueMask cueIds tc).length : ℚ) * (outIds.length : ℚ) := by
  unfold appliedDeltaTotal
  set dv := deltaVec (alpha * beta) (outcomeMask outIds lam tout)
    (clampedV lam (totalV w (cueMask cueIds tc) outIds.length)) with hdv
  have hbound : ∀ x ∈ dv.map (fun x => |x|), x ≤ alpha * beta * lam := by
    intro x hx
    obtain ⟨z, hz, rfl⟩ := List.mem_map.mp hx
    rw [hdv] at hz
    obtain ⟨m, hm, y, hy, rfl⟩ := mem_zipWith hz
    have hmv := outcomeMask_mem outIds lam tout m hm
    have hyv := clampedV_nonneg_le lam _ (le_of_lt hlam) hV y hy
    rw [abs_mul, abs_of_pos (mul_pos halpha hbeta)]
    have habs : |m - y| ≤ lam := by
      rcases hmv with rfl | rfl
      · rw [zero_sub, abs_neg, abs_of_nonneg hyv.1]
        exact hyv.2
      · rw [abs_of_nonneg (by linarith [hyv.2])]
        linarith [hyv.1]
    calc |m - y| * (alpha * beta) ≤ lam * (alpha * beta) :=
          mul_le_mul_of_nonneg_right habs (by positivity)
      _ = alpha * beta * lam := by ring
  have hsum := List.sum_le_card_nsmul (dv.map (fun x => |x|)) (alpha * beta * lam) hbound
  have hlen : ((dv.map (fun x => |x|)).length : ℚ) ≤ (outIds.length : ℚ) := by
    have hn : (dv.map (fun x => |x|)).length ≤ outIds.length := by
      rw [hdv]
      simp [deltaVec_length, outcomeMask_length]
    exact_mod_cast hn
  have hB : (0:ℚ) ≤ alpha * beta * lam := by positivity
  have h1 : (dv.map (fun x => |x|)).sum ≤
      ((dv.map (fun x => |x|)).length : ℚ) * (alpha * beta * lam) := by
    simpa [nsmul_eq_mul] using hsum
  have h2 : (dv.map (fun x => |x|)).sum ≤ (outIds.length : ℚ) * (alpha * beta * lam) :=
    h1.trans (mul_le_mul_of_nonneg_right hlen hB)
  have hC : (0:ℚ) ≤ ((cueMask cueIds tc).length : ℚ) := by positivity
  calc ((cueMask cueIds tc).length : ℚ) * (dv.map (fun x => |x|)).sum
      ≤ ((cueMask cueIds tc).length : ℚ) * ((outIds.length : ℚ) * (alpha * beta * lam)) :=
        mul_le_mul_of_nonneg_left h2 hC
    _ = alpha * beta * lam * ((cueMask cueIds tc).length : ℚ) * (outIds.length : ℚ) := by
        ring

/-- Claim C6 amended, witness at a concrete one-cue one-outcome first trial. -/
theorem C6_amended_delta_bound_witness :
    appliedDeltaTotal [symA] [symX] 1 1 1 [[0]] [symA] [symX] ≤
      1 * 1 * 1 * ((cueMask [symA] [symA]).length : ℚ) *
        ((([symX] : List String).length : ℚ)) :=
  C6_amended_delta_bound [symA] [symX] 1 1 1 [[0]] [symA] [symX] (by norm_num) (by norm_num)
    (by norm_num) (by simp [totalV, cueMask, dedupFirst, insertDistinct])

/-- Claim C7 counterexample: with lambda = -1 (the claim does not constrain
lambda), a trial with an empty outcome set, alpha = beta = 1 and a nonnegative
activation V = 1 clamps the activation down to lambda = -1, producing a
positive delta: the matrix entry increases from 1 to 2, contradicting the
claim. -/
theorem C7_counterexample :
    ((0:ℚ) ≤ 1) ∧
    (∀ x ∈ totalV [[(1:ℚ)]] (cueMask [symA] [symA]) [symX].length, 0 ≤ x) ∧
    trialStep [symA] [symX] 1 1 (-1) [[1]] [symA] [] = [[2]] ∧
    ¬(((trialStep [symA] [symX] 1 1 (-1) [[1]] [symA] []).getD 0 []).getD 0 0 ≤
        (([[(1:ℚ)]] : Weights).getD 0 []).getD 0 0) := by
  have hstep : trialStep [symA] [symX] 1 1 (-1) [[1]] [symA] [] = [[2]] := by
    simp +decide [trialStep, applyDelta, deltaVec, clampedV, overflowWarned, totalV, cueMask,
      outcomeMask, dedupFirst, insertDistinct, symA, symX, List.mapIdx, List.mapIdx.go]
    norm_num [List.range_succ]
  refine ⟨by norm_num, ?_, hstep, ?_⟩
  · intro x hx
    simp [totalV, cueMask, dedupFirst, insertDistinct] at hx
    simp [hx]
  · rw [hstep]
    norm_num

/-- Claim C7, amended: on every trial whose outcome set is empty, with
alpha >= 0, beta >= 0, lambda >= 0, a well-shaped matrix, and every pre-update
total activation nonnegative, no matrix entry increases: every entry after the
update is at most its value before. The original claim without lambda >= 0
fails (counterexample above). -/
theorem C7_amended_no_increase (cueIds outIds : List String) (alpha beta lam : ℚ)
    (w : Weights) (tc : List String) (r j : ℕ) (halpha : 0 ≤ alpha) (hbeta : 0 ≤ beta)
    (hlam : 0 ≤ lam) (hw : ∀ row ∈ w, row.length = outIds.length)
    (hV : ∀ x ∈ totalV w (cueMask cueIds tc) outIds.length, 0 ≤ x) :
    ((trialStep cueIds outIds alpha beta lam w tc []).getD r []).getD j 0 ≤
      (w.getD r []).getD j 0 := by
  unfold trialStep
  by_cases hr : r ∈ cueMask cueIds tc
  · by_cases hlt : r < w.length
    · rw [applyDelta_getD_mem _ _ _ _ hr hlt]
      apply zipWith_add_getD_le
      · have hrow : (w.getD r []).length = outIds.length := by
          rw [List.getD_eq_getElem?_getD, List.getElem?_eq_getElem hlt]
          exact hw _ (List.getElem_mem hlt)
        rw [deltaVec_length, outcomeMask_length, clampedV_length,
          totalV_length w _ _ hw, hrow, min_self]
      · apply deltaVec_nonpos _ _ _ (mul_nonneg halpha hbeta)
        · intro m hm
          rw [outcomeMask_empty] at hm
          exact List.eq_of_mem_replicate hm
        · intro y hy
          exact (clampedV_nonneg_le lam _ hlam hV y hy).1
    · have h1 : w[r]? = none := List.getElem?_eq_none (by omega)
      simp only [List.getD_eq_getElem?_getD, getElem?_applyDelta, h1]
      simp
  · rw [applyDelta_getD_not_mem _ _ _ _ hr]

/-- Claim C7 amended, witness at a concrete empty-outcome trial. -/
theorem C7_amended_no_increase_witness :
    ((trialStep [symA] [symX] 1 1 1 [[1/2]] [symA] []).getD 0 []).getD 0 0 ≤
      (([[(1:ℚ)/2]] : Weights).getD 0 []).getD 0 0 :=
  C7_amended_no_increase [symA] [symX] 1 1 1 [[1/2]] [symA] 0 0 (by norm_num) (by norm_num)
    (by norm_num) (by intro row hrow; simp at hrow; simp [hrow])
    (by intro x hx; simp [totalV, cueMask, dedupFirst, insertDistinct] at hx; simp [hx])

/-- Claim C8: the row of every cue that is not a member of the trial's cue set
is unchanged by the trial update (only rows listed in the cue mask are
written), and in the literal two-trial scenario the row of cue a is [1/100, 0]
after both trials. -/
theorem C8_absent_rows_unchanged (cueIds outIds : List String) (alpha beta lam : ℚ)
    (w : Weights) (tc tout : List String) (s : String) (hs : s ∉ tc) :
    (trialStep cueIds outIds alpha beta lam w tc tout).getD (cueIds.indexOf s) [] =
        w.getD (cueIds.indexOf s) [] ∧
    (learnRun literalCorpus (1/10) (1/10) 1 [100]).finalW.getD
        ((learnRun literalCorpus (1/10) (1/10) 1 [100]).cueIds.indexOf symA) [] =
      [1/100, 0] := by
  constructor
  · unfold trialStep
    apply applyDelta_getD_not_mem
    intro hmem
    obtain ⟨t, ht, hidx⟩ := List.mem_map.mp hmem
    have htc : t ∈ tc := (mem_dedupFirst _ _).mp (List.mem_filter.mp ht).1
    have htid : t ∈ cueIds := by simpa using (List.mem_filter.mp ht).2
    by_cases hsid : s ∈ cueIds
    · have heq : t = s := (List.indexOf_inj htid hsid).mp hidx
      exact hs (heq ▸ htc)
    · have h1 : cueIds.indexOf s = cueIds.length := List.indexOf_eq_length.mpr hsid
      have h2 : cueIds.indexOf t < cueIds.length := List.indexOf_lt_length.mpr htid
      omega
  · simp only [learnRun_literal_100]
    simp +decide [List.indexOf, List.findIdx, List.findIdx.go, symA, symB, symC]

/-- Claim C8, witness: in a concrete trial, the row of absent cue b is
untouched. -/
theorem C8_absent_rows_unchanged_witness :
    (trialStep [symA, symB] [symX] 1 1 1 [[3], [4]] [symA] [symX]).getD
        (([symA, symB] : List String).indexOf symB) [] =
      ([[3], [4]] : Weights).getD (([symA, symB] : List String).indexOf symB) [] ∧
    (learnRun literalCorpus (1/10) (1/10) 1 [100]).finalW.getD
        ((learnRun literalCorpus (1/10) (1/10) 1 [100]).cueIds.indexOf symA) [] =
      [1/100, 0] :=
  C8_absent_rows_unchanged [symA, symB] [symX] 1 1 1 [[3], [4]] [symA] [symX] symB (by decide)

theorem insertKV_length {α : Type} (acc : List (ℕ × α)) (k : ℕ) (v : α) :
    (insertKV acc k v).length ≤ acc.length + 1 := by
  induction acc with
  | nil => simp [insertKV]
  | cons p rest ih =>
      by_cases h : p.1 = k <;> simp [insertKV, h] <;> omega

theorem foldl_insertKV_length {α : Type} (ps : List ℕ) (wv : α) (acc : List (ℕ × α)) :
    (ps.foldl (fun a p => insertKV a p wv) acc).length ≤ acc.length + ps.length := by
  induction ps generalizing acc with
  | nil => simp
  | cons p ps ih =>
      simp only [List.foldl_cons]
      refine (ih _).trans ?_
      have := insertKV_length acc p wv
      simp
      omega

/-- Claim C9: the id mappings used by the trial loop are built by scanning the
same corpus, so every cue and every outcome symbol occurring in any trial has
an id; both mappings (the distinct lists read through `List.indexOf`) are
bijections onto the index range 0..n-1 (no duplicates, every id below n,
injective and surjective); the out-of-vocabulary filter inside the cue mask
never drops anything, so every dictionary lookup performed during learning
succeeds; and the empty corpus yields two empty mappings and a 0-by-0 matrix
without error. -/
theorem C9_vocabulary_closed (c : Corpus) (alpha beta lam : ℚ) (indices : List ℕ)
    (hwf : c.cueLists.length = c.outcomeLists.length) :
    (distinctSymbols c.cueLists).Nodup ∧
    (distinctSymbols c.outcomeLists).Nodup ∧
    (∀ l ∈ c.cueLists, ∀ s ∈ l, s ∈ distinctSymbols c.cueLists) ∧
    (∀ l ∈ c.outcomeLists, ∀ s ∈ l, s ∈ distinctSymbols c.outcomeLists) ∧
    (∀ s ∈ distinctSymbols c.cueLists,
      (distinctSymbols c.cueLists).indexOf s < (distinctSymbols c.cueLists).length) ∧
    (∀ s ∈ distinctSymbols c.outcomeLists,
      (distinctSymbols c.outcomeLists).indexOf s <
        (distinctSymbols c.outcomeLists).length) ∧
    (∀ s ∈ distinctSymbols c.cueLists, ∀ t ∈ distinctSymbols c.cueLists,
      (distinctSymbols c.cueLists).indexOf s = (distinctSymbols c.cueLists).indexOf t →
        s = t) ∧
    (∀ i < (distinctSymbols c.cueLists).length,
      ∃ s ∈ distinctSymbols c.cueLists, (distinctSymbols c.cueLists).indexOf s = i) ∧
    (∀ i < (distinctSymbols c.outcomeLists).length,
      ∃ s ∈ distinctSymbols c.outcomeLists,
        (distinctSymbols c.outcomeLists).indexOf s = i) ∧
    (∀ l ∈ c.cueLists,
      (dedupFirst l).filter (fun s => decide (s ∈ distinctSymbols c.cueLists)) =
        dedupFirst l) ∧
    learnRun ⟨[], []⟩ alpha beta lam indices = ⟨[], [], [], []⟩ := by
  refine ⟨distinctSymbols_nodup _, distinctSymbols_nodup _, ?_, ?_, ?_, ?_, ?_, ?_, ?_, ?_, ?_⟩
  · exact fun l hl s hsl => (mem_distinctSymbols _ _).mpr ⟨l, hl, hsl⟩
  · exact fun l hl s hsl => (mem_distinctSymbols _ _).mpr ⟨l, hl, hsl⟩
  · exact fun s hs => List.indexOf_lt_length.mpr hs
  · exact fun s hs => List.indexOf_lt_length.mpr hs
  · exact fun s hs t ht h => (List.indexOf_inj hs ht).mp h
  · intro i hi
    exact ⟨(distinctSymbols c.cueLists).get ⟨i, hi⟩, List.get_mem _ _ _,
      List.get_indexOf (distinctSymbols_nodup _) ⟨i, hi⟩⟩
  · intro i hi
    exact ⟨(distinctSymbols c.outcomeLists).get ⟨i, hi⟩, List.get_mem _ _ _,
      List.get_indexOf (distinctSymbols_nodup _) ⟨i, hi⟩⟩
  · intro l hl
    refine List.filter_eq_self.mpr ?_
    intro a ha
    simpa using (mem_distinctSymbols _ _).mpr ⟨l, hl, (mem_dedupFirst _ _).mp ha⟩
  · rfl

/-- Claim C9, witness at the literal corpus. -/
theorem C9_vocabulary_closed_witness :
    (distinctSymbols literalCorpus.cueLists).Nodup ∧
    (distinctSymbols literalCorpus.outcomeLists).Nodup ∧
    (∀ l ∈ literalCorpus.cueLists, ∀ s ∈ l, s ∈ distinctSymbols literalCorpus.cueLists) ∧
    (∀ l ∈ literalCorpus.outcomeLists, ∀ s ∈ l,
      s ∈ distinctSymbols literalCorpus.outcomeLists) ∧
    (∀ s ∈ distinctSymbols literalCorpus.cueLists,
      (distinctSymbols literalCorpus.cueLists).indexOf s <
        (distinctSymbols literalCorpus.cueLists).length) ∧
    (∀ s ∈ distinctSymbols literalCorpus.outcomeLists,
      (distinctSymbols literalCorpus.outcomeLists).indexOf s <
        (distinctSymbols literalCorpus.outcomeLists).length) ∧
    (∀ s ∈ distinctSymbols literalCorpus.cueLists,
      ∀ t ∈ distinctSymbols literalCorpus.cueLists,
      (distinctSymbols literalCorpus.cueLists).indexOf s =
          (distinctSymbols literalCorpus.cueLists).indexOf t →
        s = t) ∧
    (∀ i < (distinctSymbols literalCorpus.cueLists).length,
      ∃ s ∈ distinctSymbols literalCorpus.cueLists,
        (distinctSymbols literalCorpus.cueLists).indexOf s = i) ∧
    (∀ i < (distinctSymbols literalCorpus.outcomeLists).length,
      ∃ s ∈ distinctSymbols literalCorpus.outcomeLists,
        (distinctSymbols literalCorpus.outcomeLists).indexOf s = i) ∧
    (∀ l ∈ literalCorpus.cueLists,
      (dedupFirst l).filter
          (fun s => decide (s ∈ distinctSymbols literalCorpus.cueLists)) =
        dedupFirst l) ∧
    learnRun ⟨[], []⟩ 1 1 1 [100] = ⟨[], [], [], []⟩ :=
  C9_vocabulary_closed literalCorpus 1 1 1 [100] (by decide)

/-- Claim C10: the checkpoint-boundary map is keyed by the trial index
floor(total * p / 100); looking up a boundary index yields the last requested
percentage mapping to it (a later insertion overwrites an earlier one, modelled
as the first match in the reversed request list); a percentage whose boundary
index is 0 is never checkpointed, because the loop stores only at trial counts
i + 1 >= 1; and when the corpus has fewer trials than requested percentages,
the returned dictionary has strictly fewer entries than requested. -/
theorem C10_checkpoint_boundaries (c : Corpus) (alpha beta lam : ℚ) (indices : List ℕ)
    (k n : ℕ) (hn : c.cueLists.length * n / 100 = 0)
    (hsmall : c.cueLists.length < indices.length) :
    lookupKV (checkPoints c.cueLists.length indices) k =
        indices.reverse.find? (fun m => decide (c.cueLists.length * m / 100 = k)) ∧
    n ∉ (learnRun c alpha beta lam indices).stored ∧
    lookupKV (ndl_compute c alpha beta lam indices []).1 n = none ∧
    (ndl_compute c alpha beta lam indices []).1.length < indices.length := by
  have hnot : n ∉ (learnRun c alpha beta lam indices).stored := by
    intro hmem
    exact learnRun_stored_key_pos c alpha beta lam indices n hmem hn
  refine ⟨lookupKV_checkPoints _ _ _, hnot, ?_, ?_⟩
  · rw [ndl_compute_lookup, if_neg hnot]
    rfl
  · have h1 : (ndl_compute c alpha beta lam indices []).1.length ≤
        (learnRun c alpha beta lam indices).stored.length := by
      simpa [ndl_compute] using
        foldl_insertKV_length (learnRun c alpha beta lam indices).stored
          (learnRun c alpha beta lam indices).finalW []
    exact lt_of_le_of_lt (h1.trans (learnRun_stored_length c alpha beta lam indices)) hsmall

/-- Claim C10, witness: two-trial corpus with the twenty longitudinal
percentages, n = 5 (boundary index 0), key k = 1. -/
theorem C10_checkpoint_boundaries_witness :
    lookupKV (checkPoints literalCorpus.cueLists.length (dlIndices true)) 1 =
        (dlIndices true).reverse.find?
          (fun m => decide (literalCorpus.cueLists.length * m / 100 = 1)) ∧
    5 ∉ (learnRun literalCorpus (1/10) (1/10) 1 (dlIndices true)).stored ∧
    lookupKV (ndl_compute literalCorpus (1/10) (1/10) 1 (dlIndices true) []).1 5 = none ∧
    (ndl_compute literalCorpus (1/10) (1/10) 1 (dlIndices true) []).1.length <
      (dlIndices true).length :=
  C10_checkpoint_boundaries literalCorpus (1/10) (1/10) 1 (dlIndices true) 1 5
    (by decide) (by decide)

end NDLModel
